import Mathlib

/-!
Shallow embedding of the WellDoc ingestion-to-index pipeline.

Source files embedded: chunking.py (sentence regrouping and the directory
ingestion orchestrator), vector_embedding.py (batching, stable identity,
embedding upsert phase), llm.py (hybrid retrieval).

Strings are modelled as lists of characters so that whitespace
tokenization (Python str.split) and joining (" ".join) can be reasoned
about by structural induction.  External collaborators (text extractors,
the sentence segmenter, the hash function, the embedding service, the
vector index client) are parameters of the embedded functions, exactly as
the spec declares them to be external capabilities.
-/

set_option autoImplicit false

def toL (s : String) : List Char := s.toList

/-! ### Python str.split() — whitespace tokenization dropping empty tokens -/

/-- Accumulator-based scanner: `cur` holds the characters of the word being
read, in reverse order.  Mirrors CPython str.split with no separator. -/
def splitWsAux : List Char → List Char → List (List Char)
  | [], [] => []
  | [], cur => [cur.reverse]
  | c :: rest, cur =>
    if c.isWhitespace then
      match cur with
      | [] => splitWsAux rest []
      | _ :: _ => cur.reverse :: splitWsAux rest []
    else splitWsAux rest (c :: cur)

/-- Python s.split(): tokens of s separated by runs of whitespace. -/
def pySplit (s : List Char) : List (List Char) := splitWsAux s []

/-- len(s.split()) — the whitespace-token word count used by chunking.py. -/
def wordCount (s : List Char) : Nat := (pySplit s).length

/-- sum(len(s.split()) for s in l) — chunking.py line 147. -/
def totalWords (l : List (List Char)) : Nat := (l.map wordCount).sum

/-- " ".join(l) — chunking.py lines 137 and 149. -/
def joinSp : List (List Char) → List Char
  | [] => []
  | [s] => s
  | s :: rest => s ++ ' ' :: joinSp rest

/-! ### regroup_sentences (chunking.py lines 127-150) -/

/-- The overlap walk of chunking.py lines 139-145: walk backward from the
end of the sealed chunk (here: forward over its reversal), accumulating
whole sentences while the accumulated word count is below `overlap`.
`acc` is the overlap chunk built so far (the Python code inserts at
index 0, which prepending to `acc` reproduces). -/
def overlapWalk (overlap : Nat) : List (List Char) → Nat → List (List Char) → List (List Char)
  | [], _, acc => acc
  | s :: rest, ow, acc =>
    if ow < overlap then overlapWalk overlap rest (ow + wordCount s) (s :: acc)
    else acc

/-- The overlap seed taken from a just-sealed chunk (lines 139-146). -/
def overlapSeed (overlap : Nat) (chunk : List (List Char)) : List (List Char) :=
  overlapWalk overlap chunk.reverse 0 []

/-- The while-loop of regroup_sentences (lines 130-147), with an explicit
fuel bound: `none` means the loop has not finished within `fuel`
iterations.  State: position `i` in `sentences`, the sentence list
`current_chunk`, its tracked `word_count`, and the emitted `chunks`. -/
def regroupLoop (max_tokens overlap : Nat) (sentences : List (List Char)) :
    Nat → Nat → List (List Char) → Nat → List (List Char) → Option (List (List Char))
  | 0, _, _, _, _ => none
  | fuel + 1, i, current_chunk, word_count, chunks =>
    if h : i < sentences.length then
      if word_count + wordCount (sentences.get ⟨i, h⟩) ≤ max_tokens then
        regroupLoop max_tokens overlap sentences fuel (i + 1)
          (current_chunk ++ [sentences.get ⟨i, h⟩])
          (word_count + wordCount (sentences.get ⟨i, h⟩)) chunks
      else
        regroupLoop max_tokens overlap sentences fuel i
          (overlapSeed overlap current_chunk)
          (totalWords (overlapSeed overlap current_chunk))
          (chunks ++ [joinSp current_chunk])
    else
      some (if current_chunk.isEmpty then chunks else chunks ++ [joinSp current_chunk])

/-- regroup_sentences (chunking.py lines 127-150).  The extra `fuel`
argument bounds the number of loop iterations; the Python function has no
such bound and simply does not return on inputs where every fuel value
yields `none`. -/
def regroup_sentences (sentences : List (List Char)) (max_tokens overlap fuel : Nat) :
    Option (List (List Char)) :=
  regroupLoop max_tokens overlap sentences fuel 0 [] 0 []

example : pySplit (toL "a b") = [toL "a", toL "b"] := by decide
example : wordCount (toL "A. B. C.") = 3 := by decide
example : joinSp [toL "A.", toL "B."] = toL "A. B." := by decide
example :
    regroup_sentences [toL "A.", toL "B.", toL "C.", toL "D."] 3 1 10 =
      some [toL "A. B. C.", toL "C. D."] := by decide
example : regroup_sentences [toL "a b"] 1 0 6 = none := by decide
example : regroup_sentences [toL "w x", toL "y z"] 2 2 9 = none := by decide

/-! ### Characterization of the overlap seed -/

theorem splitWsAux_sep (b : List Char) :
    ∀ (a cur : List Char), splitWsAux (a ++ ' ' :: b) cur = splitWsAux a cur ++ splitWsAux b [] := by
  intro a
  induction a with
  | nil =>
    intro cur
    cases cur with
    | nil => simp [splitWsAux]
    | cons c cs => simp [splitWsAux]
  | cons c rest ih =>
    intro cur
    by_cases hw : c.isWhitespace
    · cases cur with
      | nil => simp [splitWsAux, hw, ih]
      | cons d ds => simp [splitWsAux, hw, ih]
    · simp [splitWsAux, hw, ih]

theorem wordCount_append_sep (a b : List Char) :
    wordCount (a ++ ' ' :: b) = wordCount a + wordCount b := by
  simp [wordCount, pySplit, splitWsAux_sep]

theorem wordCount_joinSp : ∀ l : List (List Char), wordCount (joinSp l) = totalWords l := by
  intro l
  induction l with
  | nil => simp [joinSp, totalWords, wordCount, pySplit, splitWsAux]
  | cons s rest ih =>
    cases rest with
    | nil => simp [joinSp, totalWords]
    | cons s2 rest2 =>
      have : joinSp (s :: s2 :: rest2) = s ++ ' ' :: joinSp (s2 :: rest2) := rfl
      rw [this, wordCount_append_sep, ih]
      simp [totalWords]

theorem totalWords_append (a b : List (List Char)) :
    totalWords (a ++ b) = totalWords a + totalWords b := by
  simp [totalWords]

theorem totalWords_reverse (l : List (List Char)) : totalWords l.reverse = totalWords l := by
  simp [totalWords, List.map_reverse, List.sum_reverse]

theorem totalWords_cons (s : List Char) (l : List (List Char)) :
    totalWords (s :: l) = wordCount s + totalWords l := by
  simp [totalWords]

/-- Number of sentences the overlap walk takes from the reversed chunk. -/
def seedCount (overlap : Nat) : Nat → List (List Char) → Nat
  | _, [] => 0
  | ow, s :: rest => if ow < overlap then seedCount overlap (ow + wordCount s) rest + 1 else 0

theorem overlapWalk_eq_take (V : Nat) :
    ∀ (rl : List (List Char)) (ow : Nat) (acc : List (List Char)),
      overlapWalk V rl ow acc = (rl.take (seedCount V ow rl)).reverse ++ acc := by
  intro rl
  induction rl with
  | nil => intro ow acc; simp [overlapWalk, seedCount]
  | cons s rest ih =>
    intro ow acc
    by_cases h : ow < V
    · simp [overlapWalk, seedCount, h, ih]
    · simp [overlapWalk, seedCount, h]

theorem seedCount_le_length (V : Nat) :
    ∀ (rl : List (List Char)) (ow : Nat), seedCount V ow rl ≤ rl.length := by
  intro rl
  induction rl with
  | nil => intro ow; simp [seedCount]
  | cons s rest ih =>
    intro ow
    by_cases h : ow < V
    · simp only [seedCount, if_pos h, List.length_cons]
      exact Nat.succ_le_succ (ih _)
    · simp [seedCount, h]

theorem seedCount_reaches (V : Nat) :
    ∀ (rl : List (List Char)) (ow : Nat),
      V ≤ ow + totalWords (rl.take (seedCount V ow rl)) ∨ seedCount V ow rl = rl.length := by
  intro rl
  induction rl with
  | nil => intro ow; right; simp [seedCount]
  | cons s rest ih =>
    intro ow
    by_cases h : ow < V
    · rcases ih (ow + wordCount s) with h1 | h1
      · left
        simp only [seedCount, if_pos h, List.take_succ_cons, totalWords_cons]
        omega
      · right
        simp [seedCount, h, h1]
    · left
      simp only [seedCount, if_neg h, List.take_zero]
      have : totalWords [] = 0 := rfl
      omega

theorem seedCount_min (V : Nat) :
    ∀ (rl : List (List Char)) (ow j : Nat),
      V ≤ ow + totalWords (rl.take j) → seedCount V ow rl ≤ j := by
  intro rl
  induction rl with
  | nil => intro ow j _; simp [seedCount]
  | cons s rest ih =>
    intro ow j hj
    by_cases h : ow < V
    · cases j with
      | zero =>
        exfalso
        simp only [List.take_zero] at hj
        have : totalWords [] = 0 := rfl
        omega
      | succ j2 =>
        simp only [List.take_succ_cons, totalWords_cons] at hj
        have := ih (ow + wordCount s) j2 (by omega)
        simp only [seedCount, if_pos h]
        omega
    · simp [seedCount, h]

theorem overlapSeed_eq_take (V : Nat) (c : List (List Char)) :
    overlapSeed V c = (c.reverse.take (seedCount V 0 c.reverse)).reverse := by
  simp [overlapSeed, overlapWalk_eq_take]

/-- The overlap seed is a suffix of the sealed chunk, taken as whole sentences. -/
theorem overlapSeed_suffix (V : Nat) (c : List (List Char)) :
    ∃ t, t ++ overlapSeed V c = c := by
  refine ⟨(c.reverse.drop (seedCount V 0 c.reverse)).reverse, ?_⟩
  rw [overlapSeed_eq_take]
  rw [← List.reverse_append, List.take_append_drop, List.reverse_reverse]

/-- The seed reaches the overlap budget, unless the whole chunk is shorter
than the budget, in which case the whole chunk is the seed. -/
theorem overlapSeed_reaches (V : Nat) (c : List (List Char)) :
    V ≤ totalWords (overlapSeed V c) ∨ overlapSeed V c = c := by
  rcases seedCount_reaches V c.reverse 0 with h | h
  · left
    rw [overlapSeed_eq_take, totalWords_reverse]
    omega
  · right
    rw [overlapSeed_eq_take, h, List.take_length, List.reverse_reverse]

/-- The seed is the shortest whole-sentence suffix reaching the overlap
budget: any suffix whose word count reaches the budget is at least as long. -/
theorem overlapSeed_min (V : Nat) (c s t : List (List Char))
    (hsfx : t ++ s = c) (hV : V ≤ totalWords s) :
    (overlapSeed V c).length ≤ s.length := by
  have hrev : c.reverse.take s.length = s.reverse := by
    rw [← hsfx, List.reverse_append]
    have := List.take_left s.reverse t.reverse
    simp only [List.length_reverse] at this
    exact this
  have hmin : seedCount V 0 c.reverse ≤ s.length := by
    apply seedCount_min
    rw [hrev, totalWords_reverse]
    omega
  rw [overlapSeed_eq_take]
  simp only [List.length_reverse, List.length_take]
  omega

theorem totalWords_of_suffix (s t c : List (List Char)) (h : t ++ s = c) :
    totalWords s ≤ totalWords c := by
  rw [← h, totalWords_append]; omega

/-! ### Claim C1 — regroup_sentences implements greedy seal-and-seed -/

/-- C1: regroup_sentences implements the greedy seal-and-seed algorithm.
While the sentence at position i fits (tracked word count plus its
whitespace-token count at most M) it is appended and the position
advances; otherwise the current chunk is emitted joined with single
spaces and the loop continues, at the same sentence, from the seed taken
from the sealed chunk.  That seed is a whole-sentence suffix of the
sealed chunk, its word count reaches or exceeds V unless the whole chunk
falls short of V (then the whole chunk is the seed), and it is the
shortest such suffix.  A non-empty remainder is emitted last.  On
sentences A. B. C. D. (each of word count 1) with M = 3 and V = 1 the
result is exactly the two chunks A. B. C. and C. D. -/
theorem regroup_sentences_greedy_seal_and_seed :
    (∀ (M V : Nat) (ss : List (List Char)) (fuel i : Nat) (cc : List (List Char))
        (wc : Nat) (ch : List (List Char)) (h : i < ss.length),
        wc + wordCount (ss.get ⟨i, h⟩) ≤ M →
        regroupLoop M V ss (fuel + 1) i cc wc ch =
          regroupLoop M V ss fuel (i + 1) (cc ++ [ss.get ⟨i, h⟩])
            (wc + wordCount (ss.get ⟨i, h⟩)) ch) ∧
    (∀ (M V : Nat) (ss : List (List Char)) (fuel i : Nat) (cc : List (List Char))
        (wc : Nat) (ch : List (List Char)) (h : i < ss.length),
        ¬ wc + wordCount (ss.get ⟨i, h⟩) ≤ M →
        regroupLoop M V ss (fuel + 1) i cc wc ch =
          regroupLoop M V ss fuel i (overlapSeed V cc) (totalWords (overlapSeed V cc))
            (ch ++ [joinSp cc])) ∧
    (∀ (M V : Nat) (ss : List (List Char)) (fuel i : Nat) (cc : List (List Char))
        (wc : Nat) (ch : List (List Char)), ¬ i < ss.length →
        regroupLoop M V ss (fuel + 1) i cc wc ch =
          some (if cc.isEmpty then ch else ch ++ [joinSp cc])) ∧
    (∀ (V : Nat) (c : List (List Char)),
        (∃ t, t ++ overlapSeed V c = c) ∧
        (V ≤ totalWords (overlapSeed V c) ∨ overlapSeed V c = c) ∧
        (∀ s t, t ++ s = c → V ≤ totalWords s → (overlapSeed V c).length ≤ s.length)) ∧
    regroup_sentences [toL "A.", toL "B.", toL "C.", toL "D."] 3 1 10 =
      some [toL "A. B. C.", toL "C. D."] := by
  refine ⟨?_, ?_, ?_, ?_, by decide⟩
  · intro M V ss fuel i cc wc ch h hle
    simp only [regroupLoop]
    rw [dif_pos h, if_pos hle]
  · intro M V ss fuel i cc wc ch h hle
    simp only [regroupLoop]
    rw [dif_pos h, if_neg hle]
  · intro M V ss fuel i cc wc ch h
    simp only [regroupLoop]
    rw [dif_neg h]
  · intro V c
    exact ⟨overlapSeed_suffix V c, overlapSeed_reaches V c,
      fun s t ht hV => overlapSeed_min V c s t ht hV⟩

/-- C1 witness: the seal-and-seed step applied at the concrete moment the
fourth sentence fails to fit the third chunk of the running example. -/
theorem regroup_sentences_greedy_seal_and_seed_witness :
    regroupLoop 3 1 [toL "A.", toL "B.", toL "C.", toL "D."] 6 3
        [toL "A.", toL "B.", toL "C."] 3 [] =
      regroupLoop 3 1 [toL "A.", toL "B.", toL "C.", toL "D."] 5 3
        (overlapSeed 1 [toL "A.", toL "B.", toL "C."])
        (totalWords (overlapSeed 1 [toL "A.", toL "B.", toL "C."]))
        ([] ++ [joinSp [toL "A.", toL "B.", toL "C."]]) :=
  regroup_sentences_greedy_seal_and_seed.2.1 3 1
    [toL "A.", toL "B.", toL "C.", toL "D."] 5 3
    [toL "A.", toL "B.", toL "C."] 3 [] (by decide) (by decide)

/-! ### Claim C2 — a sentence longer than M with an empty accumulator -/

/-- One iteration of the loop on a single two-word sentence with budget 1:
the greedy test fails even though the accumulator is empty, an empty
chunk is emitted, the seed is empty, and the position does not advance. -/
theorem regroupLoop_oversized_step (n : Nat) (ch : List (List Char)) :
    regroupLoop 1 0 [toL "a b"] (n + 1) 0 [] 0 ch =
      regroupLoop 1 0 [toL "a b"] n 0 [] 0 (ch ++ [[]]) := rfl

/-- C2: the code has no empty-accumulator exception.  On a single sentence
of two words with max_tokens 1 and overlap 0 the loop never returns for
any iteration bound: the claimed behavior (the oversized sentence placed
alone in its own chunk) never happens; instead the Python loop runs
forever, repeatedly emitting empty chunks. -/
theorem regroup_sentences_oversized_sentence_never_returns :
    ∀ fuel : Nat, regroup_sentences [toL "a b"] 1 0 fuel = none := by
  have key : ∀ (fuel : Nat) (ch : List (List Char)),
      regroupLoop 1 0 [toL "a b"] fuel 0 [] 0 ch = none := by
    intro fuel
    induction fuel with
    | zero => intro ch; rfl
    | succ n ih =>
      intro ch
      rw [regroupLoop_oversized_step]
      exact ih (ch ++ [[]])
  intro fuel
  exact key fuel []

/-! ### Claim C3 — regroup_sentences is not total -/

/-- One sealing iteration on two sentences of two words each with
max_tokens 2 and overlap 2: the seed taken from the sealed chunk is the
whole chunk, so the state repeats (only the emitted list grows). -/
theorem regroupLoop_reseed_step (n : Nat) (ch : List (List Char)) :
    regroupLoop 2 2 [toL "w x", toL "y z"] (n + 1) 1 [toL "w x"] 2 ch =
      regroupLoop 2 2 [toL "w x", toL "y z"] n 1 [toL "w x"] 2 (ch ++ [toL "w x"]) := rfl

/-- C3: regroup_sentences is not total.  With sentences w x and y z (two
words each, both within the budget), max_tokens 2 and overlap 2, the
overlap seed of the first sealed chunk is the whole chunk and the loop
never accepts the second sentence: no iteration bound suffices, i.e. the
Python loop runs forever. -/
theorem regroup_sentences_not_total :
    ∀ fuel : Nat, regroup_sentences [toL "w x", toL "y z"] 2 2 fuel = none := by
  have key : ∀ (fuel : Nat) (ch : List (List Char)),
      regroupLoop 2 2 [toL "w x", toL "y z"] fuel 1 [toL "w x"] 2 ch = none := by
    intro fuel
    induction fuel with
    | zero => intro ch; rfl
    | succ n ih =>
      intro ch
      rw [regroupLoop_reseed_step]
      exact ih (ch ++ [toL "w x"])
  intro fuel
  cases fuel with
  | zero => rfl
  | succ n =>
    have step : regroup_sentences [toL "w x", toL "y z"] 2 2 (n + 1) =
        regroupLoop 2 2 [toL "w x", toL "y z"] n 1 [toL "w x"] 2 [] := rfl
    rw [step]
    exact key n []

/-! ### Claim C4 — every emitted chunk respects the word budget -/

theorem regroupLoop_bound (M V : Nat) (ss : List (List Char)) :
    ∀ (fuel i : Nat) (cc : List (List Char)) (wc : Nat) (ch out : List (List Char)),
      wc = totalWords cc → wc ≤ M → (∀ s ∈ ch, wordCount s ≤ M) →
      regroupLoop M V ss fuel i cc wc ch = some out →
      ∀ s ∈ out, wordCount s ≤ M := by
  intro fuel
  induction fuel with
  | zero =>
    intro i cc wc ch out _ _ _ hsome
    simp [regroupLoop] at hsome
  | succ n ih =>
    intro i cc wc ch out hwc hle hch hsome
    by_cases h : i < ss.length
    · by_cases h2 : wc + wordCount (ss.get ⟨i, h⟩) ≤ M
      · rw [regroup_sentences_greedy_seal_and_seed.1 M V ss n i cc wc ch h h2] at hsome
        refine ih (i + 1) (cc ++ [ss.get ⟨i, h⟩]) _ ch out ?_ h2 hch hsome
        rw [totalWords_append, totalWords_cons, hwc]
        simp [totalWords]
      · rw [regroup_sentences_greedy_seal_and_seed.2.1 M V ss n i cc wc ch h h2] at hsome
        obtain ⟨t, ht⟩ := overlapSeed_suffix V cc
        have hseed : totalWords (overlapSeed V cc) ≤ M := by
          have := totalWords_of_suffix (overlapSeed V cc) t cc ht
          omega
        refine ih i (overlapSeed V cc) _ (ch ++ [joinSp cc]) out rfl hseed ?_ hsome
        intro s hs
        rcases List.mem_append.mp hs with hs | hs
        · exact hch s hs
        · have : s = joinSp cc := by simpa using hs
          rw [this, wordCount_joinSp]
          omega
    · rw [regroup_sentences_greedy_seal_and_seed.2.2.1 M V ss n i cc wc ch h] at hsome
      have hout := Option.some.inj hsome
      by_cases hcc : cc.isEmpty
      · simp only [hcc, if_true] at hout
        rw [← hout]
        exact hch
      · simp only [hcc, if_false] at hout
        rw [← hout]
        intro s hs
        rcases List.mem_append.mp hs with hs | hs
        · exact hch s hs
        · have : s = joinSp cc := by simpa using hs
          rw [this, wordCount_joinSp]
          omega

/-- C4: every chunk in a returned result respects the word budget.  The
exception the claim allows (a single oversized force-appended sentence)
never has to be exercised: whenever the loop returns, every emitted chunk
has whitespace-token word count at most max_tokens. -/
theorem regroup_sentences_chunk_word_bound (M V fuel : Nat) (ss out : List (List Char))
    (h : regroup_sentences ss M V fuel = some out) :
    ∀ ch ∈ out, wordCount ch ≤ M :=
  regroupLoop_bound M V ss fuel 0 [] 0 [] out rfl (Nat.zero_le M)
    (by intro s hs; simp at hs) h

/-- C4 witness: the bound evaluated on the running example. -/
theorem regroup_sentences_chunk_word_bound_witness :
    wordCount (toL "A. B. C.") ≤ 3 :=
  regroup_sentences_chunk_word_bound 3 1 10 [toL "A.", toL "B.", toL "C.", toL "D."]
    [toL "A. B. C.", toL "C. D."] (by decide) (toL "A. B. C.") (by decide)

/-! ### Ingestion orchestrator (chunking.py lines 153-224)

The text extractors (PyMuPDF, python-docx, textract), the sentence
segmenter (spaCy) and the content hash (hashlib sha256) are external
capabilities; they appear as function parameters gathered in `IngestEnv`.
An extractor returning `Except.error` models a raised exception; the code
itself has no try/except, so exceptions propagate.  `Option` layered
outside models non-termination of regroup_sentences (fuel exhaustion). -/

structure Block where
  page_number : Nat
  text : List Char
deriving DecidableEq

structure FileEntry where
  name : List Char
  data : List Nat
deriving DecidableEq

/-- One row of the pdf_chunks chunk store (chunking.py lines 49-60 and
201-213).  chunk_number is stored as the numeral written at line 203 and
read back as an integer by the insert (line 78); it is modelled as the
number itself. -/
structure ChunkRow where
  source_file : List Char
  chunk_number : Nat
  content : List Char
  file_hash : List Char
  last_modified : List Char
  created_at : List Char
  page_number : Nat
  chunked : Bool
  vector_embedded : Bool
deriving DecidableEq

structure IngestEnv (E : Type) where
  extract_pdf : List Nat → Except E (List Block)
  extract_docx : List Char → Except E (List Block)
  extract_doc : List Char → Except E (List Block)
  split_sentences : List Char → List (List Char)
  sha256 : List Nat → List Char
  max_tokens : Nat
  overlap : Nat
  fuel : Nat

/-- name.lower().endswith(ext). -/
def lowerEndsWith (name ext : List Char) : Bool :=
  ext.isSuffixOf (name.map Char.toLower)

/-- os.path.join(data_dir, file_name). -/
def pathJoin (dir name : List Char) : List Char := dir ++ '/' :: name

/-- The extractor dispatch of chunking.py lines 178-185.  A file whose
name matches no supported extension yields no blocks (the code returns an
empty chunk list there; empty blocks produce the same). -/
def extractBlocks {E : Type} (env : IngestEnv E) (dir : List Char) (f : FileEntry) :
    Except E (List Block) :=
  if lowerEndsWith f.name (toL ".pdf") then env.extract_pdf f.data
  else if lowerEndsWith f.name (toL ".docx") then env.extract_docx (pathJoin dir f.name)
  else if lowerEndsWith f.name (toL ".doc") then env.extract_doc (pathJoin dir f.name)
  else Except.ok []

/-- The per-block segmentation and chunking loop of lines 190-199:
content paired with the page number of its originating block.  `none`
models a diverging regroup_sentences call. -/
def blockChunks {E : Type} (env : IngestEnv E) : List Block → Option (List (List Char × Nat))
  | [] => some []
  | b :: rest =>
    match regroup_sentences (env.split_sentences b.text) env.max_tokens env.overlap env.fuel with
    | none => none
    | some cs =>
      match blockChunks env rest with
      | none => none
      | some others => some (cs.map (fun c => (c, b.page_number)) ++ others)

/-- The chunk record built at lines 201-213. -/
def mkChunkRow (file_name file_hash now utc : List Char) (idx : Nat)
    (pc : List Char × Nat) : ChunkRow :=
  { source_file := file_name
    chunk_number := idx + 1
    content := pc.1
    file_hash := file_hash
    last_modified := now
    created_at := utc
    page_number := pc.2
    chunked := true
    vector_embedded := false }

/-- process_file (chunking.py lines 164-213).  `now` and `utc` stand for
the two wall-clock reads at lines 169-170; `existing_hashes` is the
digest snapshot taken before fan-out.  Reading the file bytes is modelled
by the bytes stored in the FileEntry. -/
def process_file {E : Type} (env : IngestEnv E) (dir now utc : List Char)
    (existing_hashes : List (List Char)) (f : FileEntry) :
    Option (Except E (List ChunkRow)) :=
  if env.sha256 f.data ∈ existing_hashes then some (Except.ok [])
  else
    match extractBlocks env dir f with
    | Except.error e => some (Except.error e)
    | Except.ok blocks =>
      if blocks.isEmpty then some (Except.ok [])
      else
        match blockChunks env blocks with
        | none => none
        | some processed =>
          some (Except.ok (processed.enum.map
            (fun p => mkChunkRow f.name (env.sha256 f.data) now utc p.1 p.2)))

/-- Collecting the per-file results of executor.map in submission order
(lines 215-218): iterating the results re-raises the first exception in
order, so one failing file aborts the whole collection; a diverging file
means the run never finishes.  (If an earlier file raises while a later
one diverges, the executor shutdown still waits on the diverging worker;
no claim depends on that corner, and this model propagates the error.) -/
def seqResults {E α : Type} : List (Option (Except E α)) → Option (Except E (List α))
  | [] => some (Except.ok [])
  | none :: _ => none
  | some (Except.error e) :: _ => some (Except.error e)
  | some (Except.ok x) :: rest =>
    match seqResults rest with
    | none => none
    | some (Except.error e) => some (Except.error e)
    | some (Except.ok xs) => some (Except.ok (x :: xs))

/-- The extension filter of line 156. -/
def isSupportedFile (f : FileEntry) : Bool :=
  lowerEndsWith f.name (toL ".pdf") || lowerEndsWith f.name (toL ".doc") ||
    lowerEndsWith f.name (toL ".docx")

/-- process_all_files_from_directory (chunking.py lines 153-224), returning
the chunk-store contents after the batch insert of line 221.  `store` is
the pdf_chunks table at entry; fetch_existing_hashes (line 161) is its
file_hash column; the batch insert appends every produced chunk.  An
uncaught per-file exception aborts before the insert (the error result);
`none` models a run that never finishes. -/
def process_all_files_from_directory {E : Type} (env : IngestEnv E) (dir now utc : List Char)
    (store : List ChunkRow) (listing : List FileEntry) : Option (Except E (List ChunkRow)) :=
  match seqResults ((listing.filter isSupportedFile).map
      (process_file env dir now utc (store.map (fun r => r.file_hash)))) with
  | none => none
  | some (Except.error e) => some (Except.error e)
  | some (Except.ok lists) => some (Except.ok (store ++ lists.flatten))

/-! ### Lemmas about the ingestion run -/

theorem seqResults_ok {E α : Type} :
    ∀ (rs : List (Option (Except E α))) (ls : List α),
      seqResults rs = some (Except.ok ls) → rs = ls.map (fun x => some (Except.ok x)) := by
  intro rs
  induction rs with
  | nil =>
    intro ls h
    simp only [seqResults, Option.some.injEq] at h
    have : ls = [] := by
      cases h2 : ls with
      | nil => rfl
      | cons a as => rw [h2] at h; exact absurd h (by simp)
    simp [this]
  | cons r rest ih =>
    intro ls h
    cases r with
    | none => simp [seqResults] at h
    | some ex =>
      cases ex with
      | error e => simp [seqResults] at h
      | ok x =>
        simp only [seqResults] at h
        cases hs : seqResults rest with
        | none => rw [hs] at h; simp at h
        | some ex2 =>
          cases ex2 with
          | error e => rw [hs] at h; simp at h
          | ok xs =>
            rw [hs] at h
            simp only [Option.some.injEq, Except.ok.injEq] at h
            rw [← h, List.map_cons]
            rw [ih xs hs]

theorem seqResults_of_map_ok {E α : Type} :
    ∀ ls : List α,
      seqResults (ls.map (fun x => some (Except.ok x)) : List (Option (Except E α))) =
        some (Except.ok ls) := by
  intro ls
  induction ls with
  | nil => rfl
  | cons x xs ih => simp only [List.map_cons, seqResults, ih]

theorem map_ok_pointwise {E : Type} (P : FileEntry → Option (Except E (List ChunkRow))) :
    ∀ (fs : List FileEntry) (ls : List (List ChunkRow)),
      fs.map P = ls.map (fun x => some (Except.ok x)) →
      ∀ f ∈ fs, ∃ L ∈ ls, P f = some (Except.ok L) := by
  intro fs
  induction fs with
  | nil => intro ls _ f hf; exact absurd hf (by simp)
  | cons g gs ih =>
    intro ls h f hf
    cases ls with
    | nil => simp at h
    | cons L Ls =>
      simp only [List.map_cons, List.cons.injEq] at h
      rcases List.mem_cons.mp hf with hf | hf
      · exact ⟨L, by simp, by rw [hf]; exact h.1⟩
      · obtain ⟨L2, hL2, hPf⟩ := ih Ls h.2 f hf
        exact ⟨L2, by simp [hL2], hPf⟩

theorem flatten_map_nil {α β : Type} (l : List α) :
    (l.map (fun _ => ([] : List β))).flatten = [] := by
  induction l with
  | nil => rfl
  | cons x xs ih => simp [ih]

/-- Every chunk row produced for a file is stamped with that file's digest
(chunking.py line 205). -/
theorem process_file_hash_stamp {E : Type} (env : IngestEnv E) (dir now utc : List Char)
    (existing_hashes : List (List Char)) (f : FileEntry) (L : List ChunkRow)
    (h : process_file env dir now utc existing_hashes f = some (Except.ok L)) :
    ∀ row ∈ L, row.file_hash = env.sha256 f.data := by
  intro row hrow
  unfold process_file at h
  by_cases hmem : env.sha256 f.data ∈ existing_hashes
  · rw [if_pos hmem] at h
    simp only [Option.some.injEq, Except.ok.injEq] at h
    rw [← h] at hrow
    exact absurd hrow (by simp)
  · rw [if_neg hmem] at h
    cases hex : extractBlocks env dir f with
    | error e => rw [hex] at h; simp at h
    | ok blocks =>
      rw [hex] at h
      simp only at h
      by_cases hb : blocks.isEmpty
      · rw [if_pos hb] at h
        simp only [Option.some.injEq, Except.ok.injEq] at h
        rw [← h] at hrow
        exact absurd hrow (by simp)
      · rw [if_neg hb] at h
        cases hbc : blockChunks env blocks with
        | none => rw [hbc] at h; simp at h
        | some processed =>
          rw [hbc] at h
          simp only [Option.some.injEq, Except.ok.injEq] at h
          rw [← h] at hrow
          obtain ⟨p, _, hp⟩ := List.mem_map.mp hrow
          rw [← hp]
          rfl

/-- A file that produced no chunks in one run produces no chunks in any
later run, whatever the clock reads, as long as its digest is absent from
both digest snapshots (the produced chunks depend on the snapshot only
through the skip test, and on the clock only through rows, of which there
are none). -/
theorem process_file_empty_stable {E : Type} (env : IngestEnv E)
    (dir now utc now2 utc2 : List Char) (ex1 ex2 : List (List Char)) (f : FileEntry)
    (h1 : env.sha256 f.data ∉ ex1) (h2 : env.sha256 f.data ∉ ex2)
    (h : process_file env dir now utc ex1 f = some (Except.ok [])) :
    process_file env dir now2 utc2 ex2 f = some (Except.ok []) := by
  unfold process_file at h ⊢
  rw [if_neg h1] at h
  rw [if_neg h2]
  cases hex : extractBlocks env dir f with
  | error e => rw [hex] at h; simp at h
  | ok blocks =>
    rw [hex] at h
    simp only at h ⊢
    by_cases hb : blocks.isEmpty
    · rw [if_pos hb] at h ⊢
    · rw [if_neg hb] at h ⊢
      cases hbc : blockChunks env blocks with
      | none => rw [hbc] at h; simp at h
      | some processed =>
        rw [hbc] at h
        simp only [Option.some.injEq, Except.ok.injEq] at h
        have hnil : processed = [] := by
          have := congrArg List.length h
          simp [List.enum_length] at this
          exact this
        rw [hnil]
        rfl

/-! ### Claim C5 — digest-based skipping and idempotent ingestion -/

/-- C5: a file whose digest is already in the snapshot taken from the
chunk store is skipped (zero chunks, whatever the file name), and a
completed ingestion run makes any re-run over the unchanged listing a
no-op: the store after the second run equals the store after the first,
whatever the clock reads of the second run. -/
theorem ingestion_skips_known_digests_and_is_idempotent {E : Type} (env : IngestEnv E)
    (dir now utc now2 utc2 : List Char) :
    (∀ (existing_hashes : List (List Char)) (f : FileEntry),
        env.sha256 f.data ∈ existing_hashes →
        process_file env dir now utc existing_hashes f = some (Except.ok [])) ∧
    (∀ (store s1 : List ChunkRow) (listing : List FileEntry),
        process_all_files_from_directory env dir now utc store listing =
          some (Except.ok s1) →
        process_all_files_from_directory env dir now2 utc2 s1 listing =
          some (Except.ok s1)) := by
  constructor
  · intro existing f hmem
    unfold process_file
    rw [if_pos hmem]
  · intro store s1 listing h
    unfold process_all_files_from_directory at h ⊢
    cases hs : seqResults ((listing.filter isSupportedFile).map
        (process_file env dir now utc (store.map (fun r => r.file_hash)))) with
    | none => rw [hs] at h; simp at h
    | some ex =>
      cases ex with
      | error e => rw [hs] at h; simp at h
      | ok lists =>
        rw [hs] at h
        simp only [Option.some.injEq, Except.ok.injEq] at h
        have hmap := seqResults_ok _ lists hs
        have hall : ∀ f ∈ listing.filter isSupportedFile,
            process_file env dir now2 utc2 (s1.map (fun r => r.file_hash)) f =
              some (Except.ok []) := by
          intro f hf
          by_cases hmem2 : env.sha256 f.data ∈ s1.map (fun r => r.file_hash)
          · unfold process_file
            rw [if_pos hmem2]
          · obtain ⟨L, hLmem, hPf⟩ :=
              map_ok_pointwise _ (listing.filter isSupportedFile) lists hmap f hf
            have hmem1 : env.sha256 f.data ∉ store.map (fun r => r.file_hash) := by
              intro hc
              apply hmem2
              rw [← h]
              simp only [List.map_append, List.mem_append]
              exact Or.inl hc
            have hLnil : L = [] := by
              by_contra hne
              obtain ⟨row, hrow⟩ := List.exists_mem_of_ne_nil L hne
              have hhash := process_file_hash_stamp env dir now utc _ f L hPf row hrow
              apply hmem2
              rw [← h]
              have hrow_s1 : row ∈ store ++ lists.flatten :=
                List.mem_append.mpr (Or.inr (List.mem_flatten.mpr ⟨L, hLmem, hrow⟩))
              exact List.mem_map.mpr ⟨row, hrow_s1, hhash⟩
            rw [hLnil] at hPf
            exact process_file_empty_stable env dir now utc now2 utc2 _ _ f hmem1 hmem2 hPf
        have hmap2 : (listing.filter isSupportedFile).map
            (process_file env dir now2 utc2 (s1.map (fun r => r.file_hash))) =
            ((listing.filter isSupportedFile).map (fun _ => ([] : List ChunkRow))).map
              (fun x => some (Except.ok x)) := by
          rw [List.map_map]
          exact List.map_congr_left (fun f hf => hall f hf)
        rw [hmap2, seqResults_of_map_ok]
        simp [flatten_map_nil]

/-- Concrete ingestion environment for witnesses: one well-formed pdf. -/
def wEnv : IngestEnv Unit :=
  { extract_pdf := fun _ => Except.ok [⟨1, toL "Hi."⟩]
    extract_docx := fun _ => Except.ok []
    extract_doc := fun _ => Except.ok []
    split_sentences := fun t => [t]
    sha256 := fun b => b.map (fun n => Char.ofNat (48 + n))
    max_tokens := 500
    overlap := 50
    fuel := 50 }

def wFile : FileEntry := { name := toL "a.pdf", data := [1] }

/-- The single chunk row the witness ingestion run produces. -/
def wRow : ChunkRow :=
  { source_file := toL "a.pdf"
    chunk_number := 1
    content := toL "Hi."
    file_hash := toL "1"
    last_modified := toL "t1"
    created_at := toL "t2"
    page_number := 1
    chunked := true
    vector_embedded := false }

/-- C5 witness: a concrete first run inserts one chunk; the second run
over the unchanged listing, at later clock reads, changes nothing. -/
theorem ingestion_skips_known_digests_and_is_idempotent_witness :
    process_all_files_from_directory wEnv (toL "docs") (toL "t3") (toL "t4")
        [wRow] [wFile] = some (Except.ok [wRow]) :=
  (ingestion_skips_known_digests_and_is_idempotent wEnv (toL "docs") (toL "t1") (toL "t2")
      (toL "t3") (toL "t4")).2 [] [wRow] [wFile] (by rfl)

/-! ### Claim C6 — a per-file failure and its effect on siblings -/

/-- Ingestion environment whose pdf extractor raises on the bytes [1]
and succeeds on anything else. -/
def xEnv : IngestEnv Nat :=
  { extract_pdf := fun bytes => if bytes = [1] then Except.error 7 else Except.ok [⟨1, toL "Hi."⟩]
    extract_docx := fun _ => Except.ok []
    extract_doc := fun _ => Except.ok []
    split_sentences := fun t => [t]
    sha256 := fun b => b.map (fun n => Char.ofNat (48 + n))
    max_tokens := 500
    overlap := 50
    fuel := 50 }

def xFileBad : FileEntry := { name := toL "a.pdf", data := [1] }

def xFileGood : FileEntry := { name := toL "b.pdf", data := [2] }

/-- The chunk row the good file produces when ingested on its own. -/
def xRowGood : ChunkRow :=
  { source_file := toL "b.pdf"
    chunk_number := 1
    content := toL "Hi."
    file_hash := toL "2"
    last_modified := toL "t1"
    created_at := toL "t2"
    page_number := 1
    chunked := true
    vector_embedded := false }

/-- C6 counterexample: with a failing file and a healthy sibling in the
same directory, the run aborts with the extraction error and performs no
batch write at all — the sibling's chunk (which the same environment
produces when the sibling is ingested alone, second conjunct) is not
persisted.  This refutes the claim that a failure in one file leaves
every other file's chunks produced and persisted. -/
theorem ingestion_failure_aborts_siblings :
    process_all_files_from_directory xEnv (toL "docs") (toL "t1") (toL "t2") []
        [xFileBad, xFileGood] = some (Except.error 7) ∧
    process_all_files_from_directory xEnv (toL "docs") (toL "t1") (toL "t2") []
        [xFileGood] = some (Except.ok [xRowGood]) :=
  ⟨rfl, rfl⟩

/-- C6 amended: an uncaught per-file I/O or extraction failure aborts the
whole run before the batch write; a successful batch write happens only
in runs where no supported file failed (and none diverged). -/
theorem ingestion_batch_write_requires_all_files_ok {E : Type} (env : IngestEnv E)
    (dir now utc : List Char) (store s : List ChunkRow) (listing : List FileEntry)
    (h : process_all_files_from_directory env dir now utc store listing =
      some (Except.ok s)) :
    ∀ f ∈ listing.filter isSupportedFile, ∀ e : E,
      process_file env dir now utc (store.map (fun r => r.file_hash)) f ≠
        some (Except.error e) ∧
      process_file env dir now utc (store.map (fun r => r.file_hash)) f ≠ none := by
  unfold process_all_files_from_directory at h
  cases hs : seqResults ((listing.filter isSupportedFile).map
      (process_file env dir now utc (store.map (fun r => r.file_hash)))) with
  | none => rw [hs] at h; simp at h
  | some ex =>
    cases ex with
    | error e => rw [hs] at h; simp at h
    | ok lists =>
      have hmap := seqResults_ok _ lists hs
      intro f hf e
      obtain ⟨L, _, hPf⟩ :=
        map_ok_pointwise _ (listing.filter isSupportedFile) lists hmap f hf
      rw [hPf]
      exact ⟨by simp, by simp⟩

/-- C6 witness for the amended claim: in the concrete successful run of
the witness environment, the single file neither raised nor diverged. -/
theorem ingestion_batch_write_requires_all_files_ok_witness :
    process_file wEnv (toL "docs") (toL "t1") (toL "t2") [] wFile ≠
        some (Except.error ()) ∧
      process_file wEnv (toL "docs") (toL "t1") (toL "t2") [] wFile ≠ none :=
  ingestion_batch_write_requires_all_files_ok wEnv (toL "docs") (toL "t1") (toL "t2")
    [] [wRow] [wFile] (by rfl) wFile (by decide) ()

/-! ### vector_embedding.py — batching, stable identity, upsert phase

The relational store rows carry the system-assigned id plus the columns
the phase reads and writes (SELECT of lines 36-40, UPDATE of line 58);
the remaining pdf_chunks columns are never touched by this phase.  The
Ollama embedding call and the Weaviate collection are external: they are
the parameters `get_embedding` and `insertObj`; uuid.uuid5 is the
parameter `u5`. -/

structure DbRow where
  id : Nat
  source_file : List Char
  chunk_number : Nat
  content : List Char
  page_number : Nat
  vector_embedded : Bool
deriving DecidableEq

/-- The projection returned by the SELECT of lines 36-40. -/
structure VChunk where
  id : Nat
  source_file : List Char
  chunk_number : Nat
  content : List Char
  page_number : Nat
deriving DecidableEq

def vchunkOf (r : DbRow) : VChunk :=
  { id := r.id
    source_file := r.source_file
    chunk_number := r.chunk_number
    content := r.content
    page_number := r.page_number }

/-- get_chunks_from_db (lines 27-44): the unvectorized rows. -/
def get_chunks_from_db (db : List DbRow) : List VChunk :=
  (db.filter (fun r => !r.vector_embedded)).map vchunkOf

/-- update_vectorized_flag (lines 46-61): set vector_embedded = 1 for the
rows whose id is among chunk_ids (the function returns early when the id
list is empty). -/
def update_vectorized_flag (chunk_ids : List Nat) (db : List DbRow) : List DbRow :=
  if chunk_ids.isEmpty then db
  else db.map (fun r => if r.id ∈ chunk_ids then { r with vector_embedded := true } else r)

/-- batch_chunks (lines 72-75).  The slicing loop
for i in range(0, len(chunks), batch_size) is modelled with a structural
counter bounded by the list length (each slice drops at least one element
when the step is positive).  Python raises ValueError on step 0; the []
result returned here for that case is never relied on. -/
def batchAux {α : Type} (batch_size : Nat) : Nat → List α → List (List α)
  | 0, _ => []
  | _ + 1, [] => []
  | n + 1, chunks => chunks.take batch_size :: batchAux batch_size n (chunks.drop batch_size)

def batch_chunks {α : Type} (chunks : List α) (batch_size : Nat) : List (List α) :=
  if batch_size = 0 then [] else batchAux batch_size chunks.length chunks

/-- EMBEDDING_BATCH_SIZE (line 23). -/
def EMBEDDING_BATCH_SIZE : Nat := 16

/-- str(chunk_number) inside the uuid base string. -/
def natStr (n : Nat) : List Char := Nat.toDigits 10 n

/-- stable_uuid (lines 105-108): uuid5 applied to
source_file + underscore + chunk_number.  uuid.uuid5 is the external
deterministic function u5. -/
def stable_uuid (u5 : List Char → List Char) (chunk : VChunk) : List Char :=
  u5 (chunk.source_file ++ '_' :: natStr chunk.chunk_number)

/-- The data_object of lines 123-127. -/
structure DataObject where
  content : List Char
  source_file : List Char
  page_number : Nat
deriving DecidableEq

def dataObject (chunk : VChunk) : DataObject :=
  { content := chunk.content
    source_file := chunk.source_file
    page_number := chunk.page_number }

/-- Modelled from the spec: the external vector/lexical index backend
(spec section 6, Index interface: upsert(identity, properties, vector))
keeps at most one entry per identity; an upsert overwrites every entry
carrying that identity, or appends a fresh one when the identity is new.
The repository only calls this interface (collection.data.insert with an
explicit uuid, vector_embedding.py lines 129-133); the backend itself is
not part of the repository. -/
structure IndexEntry (Vec : Type) where
  uuid : List Char
  props : DataObject
  vector : Vec
deriving DecidableEq

def upsertEntry {Vec : Type} (idx : List (IndexEntry Vec)) (u : List Char)
    (p : DataObject) (v : Vec) : List (IndexEntry Vec) :=
  if idx.any (fun e => e.uuid == u) then
    idx.map (fun e => if e.uuid == u then ⟨u, p, v⟩ else e)
  else idx ++ [⟨u, p, v⟩]

/-- The per-chunk try-body of store_embeddings (lines 116-139).  State:
index contents paired with successful_ids.  Empty (falsy) content is
skipped before any external call; a raised embedding or index-write
exception leaves the state unchanged (the except branch continues with
the next chunk). -/
def embedOne {E Vec : Type} (u5 : List Char → List Char)
    (get_embedding : List Char → Except E Vec)
    (insertObj : List (IndexEntry Vec) → List Char → DataObject → Vec →
      Except E (List (IndexEntry Vec)))
    (st : List (IndexEntry Vec) × List Nat) (chunk : VChunk) :
    List (IndexEntry Vec) × List Nat :=
  if chunk.content.isEmpty then st
  else
    match get_embedding chunk.content with
    | Except.error _ => st
    | Except.ok emb =>
      match insertObj st.1 (stable_uuid u5 chunk) (dataObject chunk) emb with
      | Except.error _ => st
      | Except.ok idx2 => (idx2, st.2 ++ [chunk.id])

/-- One outer-loop iteration of store_embeddings (lines 114-141): run the
per-chunk bodies of a batch starting from an empty successful_ids list,
then flip the flags of exactly the collected ids. -/
def storeStep {E Vec : Type} (u5 : List Char → List Char)
    (get_embedding : List Char → Except E Vec)
    (insertObj : List (IndexEntry Vec) → List Char → DataObject → Vec →
      Except E (List (IndexEntry Vec)))
    (st : List (IndexEntry Vec) × List DbRow) (batch : List VChunk) :
    List (IndexEntry Vec) × List DbRow :=
  ((batch.foldl (embedOne u5 get_embedding insertObj) (st.1, [])).1,
    update_vectorized_flag (batch.foldl (embedOne u5 get_embedding insertObj) (st.1, [])).2 st.2)

/-- store_embeddings (lines 110-141), threading the index contents and
the relational rows through the batches of EMBEDDING_BATCH_SIZE. -/
def store_embeddings {E Vec : Type} (u5 : List Char → List Char)
    (get_embedding : List Char → Except E Vec)
    (insertObj : List (IndexEntry Vec) → List Char → DataObject → Vec →
      Except E (List (IndexEntry Vec)))
    (chunks : List VChunk) (idx : List (IndexEntry Vec)) (db : List DbRow) :
    List (IndexEntry Vec) × List DbRow :=
  (batch_chunks chunks EMBEDDING_BATCH_SIZE).foldl
    (storeStep u5 get_embedding insertObj) (idx, db)

/-! ### Claim C10 — batching is a partition -/

theorem batchAux_flatten {α : Type} (bs : Nat) (hbs : 0 < bs) :
    ∀ (n : Nat) (l : List α), l.length ≤ n → (batchAux bs n l).flatten = l := by
  intro n
  induction n with
  | zero =>
    intro l hl
    have : l = [] := List.length_eq_zero.mp (Nat.le_zero.mp hl)
    rw [this]
    rfl
  | succ n ih =>
    intro l hl
    cases l with
    | nil => rfl
    | cons x xs =>
      have hstep : batchAux bs (n + 1) (x :: xs) =
          (x :: xs).take bs :: batchAux bs n ((x :: xs).drop bs) := by
        simp [batchAux]
      rw [hstep]
      have hdrop : ((x :: xs).drop bs).length ≤ n := by
        simp only [List.length_drop, List.length_cons]
        simp only [List.length_cons] at hl
        omega
      simp only [List.flatten_cons, ih _ hdrop, List.take_append_drop]

theorem batchAux_size {α : Type} (bs : Nat) :
    ∀ (n : Nat) (l : List α) (b : List α), b ∈ batchAux bs n l → b.length ≤ bs := by
  intro n
  induction n with
  | zero => intro l b hb; exact absurd hb (by simp [batchAux])
  | succ n ih =>
    intro l b hb
    cases l with
    | nil => exact absurd hb (by simp [batchAux])
    | cons x xs =>
      have hstep : batchAux bs (n + 1) (x :: xs) =
          (x :: xs).take bs :: batchAux bs n ((x :: xs).drop bs) := by
        simp [batchAux]
      rw [hstep] at hb
      rcases List.mem_cons.mp hb with hb | hb
      · rw [hb]
        simp [List.length_take]
      · exact ih _ b hb

/-- C10: for a positive batch size, batch_chunks yields a partition of its
input: the concatenation of the batches is the input list itself (hence
every chunk appears exactly once, in order) and no batch exceeds the
batch size. -/
theorem batch_chunks_partition {α : Type} (l : List α) (bs : Nat) (hbs : 0 < bs) :
    (batch_chunks l bs).flatten = l ∧ ∀ b ∈ batch_chunks l bs, b.length ≤ bs := by
  unfold batch_chunks
  rw [if_neg (Nat.pos_iff_ne_zero.mp hbs)]
  exact ⟨batchAux_flatten bs hbs l.length l le_rfl,
    fun b hb => batchAux_size bs l.length l b hb⟩

/-- C10 witness: batching five elements with batch size 2. -/
theorem batch_chunks_partition_witness :
    0 < 2 ∧ ((batch_chunks [10, 20, 30, 40, 50] 2).flatten = [10, 20, 30, 40, 50] ∧
      ∀ b ∈ batch_chunks [10, 20, 30, 40, 50] 2, b.length ≤ 2) :=
  ⟨by decide, batch_chunks_partition [10, 20, 30, 40, 50] 2 (by decide)⟩

/-! ### Claim C8 — stable identity and overwrite-not-duplicate -/

theorem upsertEntry_any_self {Vec : Type} (idx : List (IndexEntry Vec)) (u : List Char)
    (p : DataObject) (v : Vec) :
    (upsertEntry idx u p v).any (fun e => e.uuid == u) = true := by
  unfold upsertEntry
  by_cases h : idx.any (fun e => e.uuid == u)
  · rw [if_pos h]
    obtain ⟨e, he, hu⟩ := List.any_eq_true.mp h
    apply List.any_eq_true.mpr
    refine ⟨if e.uuid == u then ⟨u, p, v⟩ else e, List.mem_map.mpr ⟨e, he, rfl⟩, ?_⟩
    rw [if_pos hu]
    exact beq_self_eq_true u
  · rw [if_neg h]
    apply List.any_eq_true.mpr
    exact ⟨⟨u, p, v⟩, by simp, beq_self_eq_true u⟩

/-- C8: the index identity of a chunk is a function of the pair
(source file name, chunk number) only — content never enters — and an
upsert of a second chunk carrying the same pair, different content,
writes under the same identity: the index gains no entry and every entry
under that identity now carries the second chunk's data object and
vector. -/
theorem stable_uuid_identity_overwrites :
    (∀ (u5 : List Char → List Char) (c1 c2 : VChunk),
        c1.source_file = c2.source_file → c1.chunk_number = c2.chunk_number →
        stable_uuid u5 c1 = stable_uuid u5 c2) ∧
    (∀ (Vec : Type) (u5 : List Char → List Char) (idx : List (IndexEntry Vec))
        (c1 c2 : VChunk) (v1 v2 : Vec),
        c1.source_file = c2.source_file → c1.chunk_number = c2.chunk_number →
        (upsertEntry (upsertEntry idx (stable_uuid u5 c1) (dataObject c1) v1)
            (stable_uuid u5 c2) (dataObject c2) v2).length =
          (upsertEntry idx (stable_uuid u5 c1) (dataObject c1) v1).length ∧
        ∀ e ∈ upsertEntry (upsertEntry idx (stable_uuid u5 c1) (dataObject c1) v1)
            (stable_uuid u5 c2) (dataObject c2) v2,
          e.uuid = stable_uuid u5 c1 → e.props = dataObject c2 ∧ e.vector = v2) := by
  have huuid : ∀ (u5 : List Char → List Char) (c1 c2 : VChunk),
      c1.source_file = c2.source_file → c1.chunk_number = c2.chunk_number →
      stable_uuid u5 c1 = stable_uuid u5 c2 := by
    intro u5 c1 c2 h1 h2
    unfold stable_uuid
    rw [h1, h2]
  refine ⟨huuid, ?_⟩
  intro Vec u5 idx c1 c2 v1 v2 h1 h2
  rw [← huuid u5 c1 c2 h1 h2]
  have hany := upsertEntry_any_self idx (stable_uuid u5 c1) (dataObject c1) v1
  constructor
  · conv =>
      lhs
      rw [upsertEntry, if_pos hany]
    rw [List.length_map]
  · intro e he hu
    rw [upsertEntry, if_pos hany] at he
    obtain ⟨e0, _, he0⟩ := List.mem_map.mp he
    by_cases h0 : e0.uuid == stable_uuid u5 c1
    · rw [if_pos h0] at he0
      rw [← he0]
      exact ⟨rfl, rfl⟩
    · rw [if_neg h0] at he0
      rw [← he0] at hu
      exact absurd (beq_iff_eq.mpr hu) (by exact fun hc => h0 hc)

def wC1 : VChunk :=
  { id := 1, source_file := toL "f.pdf", chunk_number := 2, content := toL "alpha",
    page_number := 3 }

def wC2 : VChunk :=
  { id := 9, source_file := toL "f.pdf", chunk_number := 2, content := toL "beta",
    page_number := 4 }

/-- C8 witness: upserting the two concrete chunks (same file and chunk
number, different content) leaves the index size unchanged. -/
theorem stable_uuid_identity_overwrites_witness :
    (upsertEntry (upsertEntry ([] : List (IndexEntry Nat)) (stable_uuid (fun x => x) wC1)
          (dataObject wC1) 10) (stable_uuid (fun x => x) wC2) (dataObject wC2) 20).length =
      (upsertEntry ([] : List (IndexEntry Nat)) (stable_uuid (fun x => x) wC1)
          (dataObject wC1) 10).length :=
  (stable_uuid_identity_overwrites.2 Nat (fun x => x) [] wC1 wC2 10 20 rfl rfl).1

/-! ### Claim C7 — flag discipline of the upsert phase -/

theorem update_vectorized_flag_length (ids : List Nat) (db : List DbRow) :
    (update_vectorized_flag ids db).length = db.length := by
  unfold update_vectorized_flag
  by_cases h : ids.isEmpty
  · rw [if_pos h]
  · rw [if_neg h, List.length_map]

theorem update_vectorized_flag_get? (ids : List Nat) (db : List DbRow) (i : Nat)
    (h : i < db.length) :
    (update_vectorized_flag ids db).get? i =
      some (if (db.get ⟨i, h⟩).id ∈ ids then { db.get ⟨i, h⟩ with vector_embedded := true }
        else db.get ⟨i, h⟩) := by
  have hmem : ids.isEmpty = true → (db.get ⟨i, h⟩).id ∉ ids := by
    intro he
    rw [List.isEmpty_iff.mp he]
    simp
  unfold update_vectorized_flag
  by_cases hids : ids.isEmpty
  · rw [if_pos hids, List.get?_eq_get h, if_neg (hmem hids)]
  · rw [if_neg hids, List.get?_map, List.get?_eq_get h]
    rfl

theorem update_vectorized_flag_get (ids : List Nat) (db : List DbRow) (i : Nat)
    (h : i < db.length) (h2 : i < (update_vectorized_flag ids db).length) :
    (update_vectorized_flag ids db).get ⟨i, h2⟩ =
      if (db.get ⟨i, h⟩).id ∈ ids then { db.get ⟨i, h⟩ with vector_embedded := true }
      else db.get ⟨i, h⟩ := by
  have hq := update_vectorized_flag_get? ids db i h
  rw [List.get?_eq_get h2] at hq
  exact Option.some.inj hq

theorem row_set_true_of_true (r : DbRow) (h : r.vector_embedded = true) :
    { r with vector_embedded := true } = r := by
  cases r with
  | mk a b c d e f =>
    have h2 : f = true := h
    rw [h2]

/-- Success of the per-chunk try-body at the actual index state `idx` it
runs against (vector_embedding.py lines 116-135): the content is
non-empty, the embedding call returns a vector, and the index write of
that vector at that very state returns without raising.  These are
exactly the conditions under which line 135 appends the chunk id to
successful_ids. -/
def embedAttemptOk {E Vec : Type} (u5 : List Char → List Char)
    (get_embedding : List Char → Except E Vec)
    (insertObj : List (IndexEntry Vec) → List Char → DataObject → Vec →
      Except E (List (IndexEntry Vec)))
    (idx : List (IndexEntry Vec)) (c : VChunk) : Prop :=
  c.content.isEmpty = false ∧ ∃ v, get_embedding c.content = Except.ok v ∧
    ∃ idx1, insertObj idx (stable_uuid u5 c) (dataObject c) v = Except.ok idx1

/-- A chunk whose body succeeds at the current state appends exactly its
own id to successful_ids. -/
theorem embedOne_of_ok {E Vec : Type} (u5 : List Char → List Char)
    (get_embedding : List Char → Except E Vec)
    (insertObj : List (IndexEntry Vec) → List Char → DataObject → Vec →
      Except E (List (IndexEntry Vec)))
    (st : List (IndexEntry Vec) × List Nat) (c : VChunk)
    (h : embedAttemptOk u5 get_embedding insertObj st.1 c) :
    ∃ idx1, embedOne u5 get_embedding insertObj st c = (idx1, st.2 ++ [c.id]) := by
  obtain ⟨hc, v, hv, idx1, hio⟩ := h
  refine ⟨idx1, ?_⟩
  unfold embedOne
  rw [if_neg (by simp [hc])]
  simp only [hv, hio]

/-- A chunk whose body does not fully succeed leaves both the index and
the collected successful_ids unchanged — one chunk skipping or failing
never disturbs the state its siblings run against. -/
theorem embedOne_of_not_ok {E Vec : Type} (u5 : List Char → List Char)
    (get_embedding : List Char → Except E Vec)
    (insertObj : List (IndexEntry Vec) → List Char → DataObject → Vec →
      Except E (List (IndexEntry Vec)))
    (st : List (IndexEntry Vec) × List Nat) (c : VChunk)
    (h : ¬ embedAttemptOk u5 get_embedding insertObj st.1 c) :
    embedOne u5 get_embedding insertObj st c = st := by
  by_cases hc : c.content.isEmpty
  · unfold embedOne
    rw [if_pos hc]
  · cases hge : get_embedding c.content with
    | error e =>
      unfold embedOne
      rw [if_neg hc]
      simp only [hge]
    | ok v =>
      cases hio : insertObj st.1 (stable_uuid u5 c) (dataObject c) v with
      | error e =>
        unfold embedOne
        rw [if_neg hc]
        simp only [hge, hio]
      | ok idx1 =>
        exact absurd ⟨by simpa using hc, v, hge, idx1, hio⟩ h

theorem embedOne_snd_mono {E Vec : Type} (u5 : List Char → List Char)
    (get_embedding : List Char → Except E Vec)
    (insertObj : List (IndexEntry Vec) → List Char → DataObject → Vec →
      Except E (List (IndexEntry Vec)))
    (st : List (IndexEntry Vec) × List Nat) (c : VChunk) (n : Nat) (h : n ∈ st.2) :
    n ∈ (embedOne u5 get_embedding insertObj st c).2 := by
  by_cases hc : c.content.isEmpty
  · unfold embedOne
    rw [if_pos hc]
    exact h
  · cases hge : get_embedding c.content with
    | error e =>
      unfold embedOne
      rw [if_neg hc]
      simp only [hge]
      exact h
    | ok v =>
      cases hio : insertObj st.1 (stable_uuid u5 c) (dataObject c) v with
      | error e =>
        unfold embedOne
        rw [if_neg hc]
        simp only [hge, hio]
        exact h
      | ok idx1 =>
        unfold embedOne
        rw [if_neg hc]
        simp only [hge, hio]
        exact List.mem_append_left _ h

theorem embed_fold_ids_mono {E Vec : Type} (u5 : List Char → List Char)
    (get_embedding : List Char → Except E Vec)
    (insertObj : List (IndexEntry Vec) → List Char → DataObject → Vec →
      Except E (List (IndexEntry Vec))) :
    ∀ (batch : List VChunk) (st : List (IndexEntry Vec) × List Nat) (n : Nat),
      n ∈ st.2 → n ∈ (batch.foldl (embedOne u5 get_embedding insertObj) st).2 := by
  intro batch
  induction batch with
  | nil => intro st n h; exact h
  | cons c rest ih =>
    intro st n h
    rw [List.foldl_cons]
    exact ih _ n (embedOne_snd_mono u5 get_embedding insertObj st c n h)

/-- Soundness of one batch: a collected id comes from a chunk of the
batch whose body succeeded at the very index state it ran against (the
state reached after its predecessors in the batch). -/
theorem embed_fold_sound {E Vec : Type} (u5 : List Char → List Char)
    (get_embedding : List Char → Except E Vec)
    (insertObj : List (IndexEntry Vec) → List Char → DataObject → Vec →
      Except E (List (IndexEntry Vec))) :
    ∀ (batch : List VChunk) (st : List (IndexEntry Vec) × List Nat) (n : Nat),
      n ∈ (batch.foldl (embedOne u5 get_embedding insertObj) st).2 →
      n ∈ st.2 ∨ ∃ pre c post, batch = pre ++ c :: post ∧ n = c.id ∧
        embedAttemptOk u5 get_embedding insertObj
          ((pre.foldl (embedOne u5 get_embedding insertObj) st).1) c := by
  intro batch
  induction batch with
  | nil => intro st n h; exact Or.inl h
  | cons c rest ih =>
    intro st n h
    rw [List.foldl_cons] at h
    rcases ih _ n h with h2 | h2
    · by_cases hok : embedAttemptOk u5 get_embedding insertObj st.1 c
      · obtain ⟨idx1, heq⟩ := embedOne_of_ok u5 get_embedding insertObj st c hok
        rw [heq] at h2
        rcases List.mem_append.mp h2 with h3 | h3
        · exact Or.inl h3
        · exact Or.inr ⟨[], c, rest, rfl, by simpa using h3, hok⟩
      · rw [embedOne_of_not_ok u5 get_embedding insertObj st c hok] at h2
        exact Or.inl h2
    · obtain ⟨pre, c2, post, hdec, hn, hok⟩ := h2
      refine Or.inr ⟨c :: pre, c2, post, by rw [hdec]; rfl, hn, ?_⟩
      exact hok

/-- Completeness of one batch: a chunk whose body succeeds at the index
state reached after its predecessors has its id collected, whatever the
other chunks of the batch do. -/
theorem embed_fold_complete {E Vec : Type} (u5 : List Char → List Char)
    (get_embedding : List Char → Except E Vec)
    (insertObj : List (IndexEntry Vec) → List Char → DataObject → Vec →
      Except E (List (IndexEntry Vec))) :
    ∀ (pre : List VChunk) (c : VChunk) (post : List VChunk)
      (st : List (IndexEntry Vec) × List Nat),
      embedAttemptOk u5 get_embedding insertObj
        ((pre.foldl (embedOne u5 get_embedding insertObj) st).1) c →
      c.id ∈ ((pre ++ c :: post).foldl (embedOne u5 get_embedding insertObj) st).2 := by
  intro pre c post st hok
  rw [List.foldl_append, List.foldl_cons]
  obtain ⟨idx1, heq⟩ := embedOne_of_ok u5 get_embedding insertObj
    (pre.foldl (embedOne u5 get_embedding insertObj) st) c hok
  rw [heq]
  exact embed_fold_ids_mono u5 get_embedding insertObj post _ c.id
    (List.mem_append_right _ (by simp))

/-- Exactness of one batch's success list: starting from the empty
successful_ids of line 115, an id is collected in the batch exactly when
some chunk of the batch carries it and its body succeeded at the index
state it actually ran against. -/
theorem batch_success_ids_iff {E Vec : Type} (u5 : List Char → List Char)
    (get_embedding : List Char → Except E Vec)
    (insertObj : List (IndexEntry Vec) → List Char → DataObject → Vec →
      Except E (List (IndexEntry Vec)))
    (batch : List VChunk) (idx0 : List (IndexEntry Vec)) (n : Nat) :
    n ∈ (batch.foldl (embedOne u5 get_embedding insertObj) (idx0, ([] : List Nat))).2 ↔
      ∃ pre c post, batch = pre ++ c :: post ∧ n = c.id ∧
        embedAttemptOk u5 get_embedding insertObj
          ((pre.foldl (embedOne u5 get_embedding insertObj) (idx0, ([] : List Nat))).1) c := by
  constructor
  · intro h
    rcases embed_fold_sound u5 get_embedding insertObj batch (idx0, []) n h with h2 | h2
    · exact absurd h2 (by simp)
    · exact h2
  · rintro ⟨pre, c, post, hdec, hn, hok⟩
    rw [hdec, hn]
    exact embed_fold_complete u5 get_embedding insertObj pre c post (idx0, []) hok

/-- Invariant of the outer batch loop: the rows keep their length, and
each row is either returned untouched or flag-set with its id collected
by some batch at the index state that batch actually started from. -/
theorem store_fold_inv {E Vec : Type} (u5 : List Char → List Char)
    (get_embedding : List Char → Except E Vec)
    (insertObj : List (IndexEntry Vec) → List Char → DataObject → Vec →
      Except E (List (IndexEntry Vec))) :
    ∀ (batches : List (List VChunk)) (idx : List (IndexEntry Vec)) (db : List DbRow),
      ((batches.foldl (storeStep u5 get_embedding insertObj) (idx, db)).2.length =
        db.length) ∧
      ∀ (i : Nat) (h : i < db.length)
        (h2 : i < (batches.foldl (storeStep u5 get_embedding insertObj) (idx, db)).2.length),
        (batches.foldl (storeStep u5 get_embedding insertObj) (idx, db)).2.get ⟨i, h2⟩ =
            db.get ⟨i, h⟩ ∨
        ((batches.foldl (storeStep u5 get_embedding insertObj) (idx, db)).2.get ⟨i, h2⟩ =
            { db.get ⟨i, h⟩ with vector_embedded := true } ∧
          ∃ bpre b bpost, batches = bpre ++ b :: bpost ∧
            (db.get ⟨i, h⟩).id ∈
              (b.foldl (embedOne u5 get_embedding insertObj)
                ((bpre.foldl (storeStep u5 get_embedding insertObj) (idx, db)).1,
                  ([] : List Nat))).2) := by
  intro batches
  induction batches with
  | nil =>
    intro idx db
    exact ⟨rfl, fun i h h2 => Or.inl rfl⟩
  | cons b bs ih =>
    intro idx db
    rw [List.foldl_cons]
    have hss : storeStep u5 get_embedding insertObj (idx, db) b =
        ((b.foldl (embedOne u5 get_embedding insertObj) (idx, [])).1,
          update_vectorized_flag
            (b.foldl (embedOne u5 get_embedding insertObj) (idx, [])).2 db) := rfl
    rw [hss]
    obtain ⟨ihlen, ihget⟩ := ih
      (b.foldl (embedOne u5 get_embedding insertObj) (idx, [])).1
      (update_vectorized_flag (b.foldl (embedOne u5 get_embedding insertObj) (idx, [])).2 db)
    refine ⟨by rw [ihlen, update_vectorized_flag_length], ?_⟩
    intro i h h2
    have h1 : i < (update_vectorized_flag
        (b.foldl (embedOne u5 get_embedding insertObj) (idx, [])).2 db).length := by
      rw [update_vectorized_flag_length]
      exact h
    have hchar := update_vectorized_flag_get
      (b.foldl (embedOne u5 get_embedding insertObj) (idx, [])).2 db i h h1
    have hid : ((update_vectorized_flag
        (b.foldl (embedOne u5 get_embedding insertObj) (idx, [])).2 db).get ⟨i, h1⟩).id =
        (db.get ⟨i, h⟩).id := by
      rw [hchar]
      split
      · rfl
      · rfl
    have hset : { (update_vectorized_flag
        (b.foldl (embedOne u5 get_embedding insertObj) (idx, [])).2 db).get ⟨i, h1⟩ with
          vector_embedded := true } =
        { db.get ⟨i, h⟩ with vector_embedded := true } := by
      rw [hchar]
      split
      · rfl
      · rfl
    rcases ihget i h1 h2 with hcase | ⟨hcase, bpre2, b2, bpost2, hdec, hmem⟩
    · rw [hcase, hchar]
      by_cases hidmem : (db.get ⟨i, h⟩).id ∈
          (b.foldl (embedOne u5 get_embedding insertObj) (idx, [])).2
      · rw [if_pos hidmem]
        exact Or.inr ⟨rfl, [], b, bs, rfl, hidmem⟩
      · rw [if_neg hidmem]
        exact Or.inl rfl
    · refine Or.inr ⟨by rw [hcase, hset], b :: bpre2, b2, bpost2, by rw [hdec]; rfl, ?_⟩
      rw [← hid]
      exact hmem

/-- A flag that is true on entry to the batch loop is still true on exit
(never reset). -/
theorem store_fold_flag_mono {E Vec : Type} (u5 : List Char → List Char)
    (get_embedding : List Char → Except E Vec)
    (insertObj : List (IndexEntry Vec) → List Char → DataObject → Vec →
      Except E (List (IndexEntry Vec))) :
    ∀ (batches : List (List VChunk)) (idx : List (IndexEntry Vec)) (db : List DbRow)
      (i : Nat) (h : i < db.length)
      (h2 : i < (batches.foldl (storeStep u5 get_embedding insertObj) (idx, db)).2.length),
      (db.get ⟨i, h⟩).vector_embedded = true →
      ((batches.foldl (storeStep u5 get_embedding insertObj) (idx, db)).2.get
        ⟨i, h2⟩).vector_embedded = true := by
  intro batches idx db i h h2 hflag
  rcases (store_fold_inv u5 get_embedding insertObj batches idx db).2 i h h2 with
    hcase | ⟨hcase, _⟩
  · rw [hcase]
    exact hflag
  · rw [hcase]

/-- Completeness of the whole phase: an id collected by one batch at the
index state that batch actually started from ends with its row flag set
in the final table. -/
theorem store_fold_complete {E Vec : Type} (u5 : List Char → List Char)
    (get_embedding : List Char → Except E Vec)
    (insertObj : List (IndexEntry Vec) → List Char → DataObject → Vec →
      Except E (List (IndexEntry Vec))) :
    ∀ (bpre : List (List VChunk)) (b : List VChunk) (bpost : List (List VChunk))
      (idx : List (IndexEntry Vec)) (db : List DbRow) (i : Nat) (h : i < db.length)
      (h2 : i <
        (((bpre ++ b :: bpost).foldl (storeStep u5 get_embedding insertObj)
          (idx, db)).2).length),
      (db.get ⟨i, h⟩).id ∈
        (b.foldl (embedOne u5 get_embedding insertObj)
          ((bpre.foldl (storeStep u5 get_embedding insertObj) (idx, db)).1,
            ([] : List Nat))).2 →
      ((((bpre ++ b :: bpost).foldl (storeStep u5 get_embedding insertObj) (idx, db)).2).get
        ⟨i, h2⟩).vector_embedded = true := by
  intro bpre
  induction bpre with
  | nil =>
    intro b bpost idx db i h h2 hmem
    have h1 : i < (update_vectorized_flag
        (b.foldl (embedOne u5 get_embedding insertObj) (idx, [])).2 db).length := by
      rw [update_vectorized_flag_length]
      exact h
    have hmem2 : (db.get ⟨i, h⟩).id ∈
        (b.foldl (embedOne u5 get_embedding insertObj) (idx, ([] : List Nat))).2 := hmem
    have hchar := update_vectorized_flag_get
      (b.foldl (embedOne u5 get_embedding insertObj) (idx, [])).2 db i h h1
    have hflag1 : ((update_vectorized_flag
        (b.foldl (embedOne u5 get_embedding insertObj) (idx, [])).2 db).get
        ⟨i, h1⟩).vector_embedded = true := by
      rw [hchar, if_pos hmem2]
    exact store_fold_flag_mono u5 get_embedding insertObj bpost
      (b.foldl (embedOne u5 get_embedding insertObj) (idx, [])).1
      (update_vectorized_flag (b.foldl (embedOne u5 get_embedding insertObj) (idx, [])).2 db)
      i h1 h2 hflag1
  | cons b0 rest ih =>
    intro b bpost idx db i h h2 hmem
    have h1 : i < (update_vectorized_flag
        (b0.foldl (embedOne u5 get_embedding insertObj) (idx, [])).2 db).length := by
      rw [update_vectorized_flag_length]
      exact h
    have hchar := update_vectorized_flag_get
      (b0.foldl (embedOne u5 get_embedding insertObj) (idx, [])).2 db i h h1
    have hid : ((update_vectorized_flag
        (b0.foldl (embedOne u5 get_embedding insertObj) (idx, [])).2 db).get ⟨i, h1⟩).id =
        (db.get ⟨i, h⟩).id := by
      rw [hchar]
      split
      · rfl
      · rfl
    refine ih b bpost
      (b0.foldl (embedOne u5 get_embedding insertObj) (idx, [])).1
      (update_vectorized_flag (b0.foldl (embedOne u5 get_embedding insertObj) (idx, [])).2 db)
      i h1 h2 ?_
    rw [hid]
    exact hmem

/-- C7: the upsert phase changes vector_embedded only from false to
true, and after each batch flips exactly the identifiers whose per-chunk
body succeeded in that batch.  Conjuncts: (1) the rows table keeps its
length; (2) a row already flagged true is returned unchanged, so a true
flag is never reset and a re-run leaves embedded rows untouched; (3)
exactness of the whole phase: a row ends with flag true iff it started
true or some chunk carrying its id succeeded — non-empty content,
embedding returned, index write returned — at the very index state it
ran against inside its batch (hence empty-content chunks are skipped and
left false, and a batch is never flipped wholesale); (4) exactness of
one batch's successful_ids, the list the batch-end update flips: an id
is collected iff a chunk of the batch carries it and its body succeeded
at the index state reached after its predecessors in the batch; (5) a
chunk whose body does not succeed leaves the state unchanged, so one
chunk's failure never affects which siblings succeed; (6) every row is
either returned untouched or changed only by setting its flag; (7) the
work set fetched by get_chunks_from_db contains only rows with flag
false, so already-embedded rows are excluded by construction. -/
theorem store_embeddings_flag_discipline {E Vec : Type} (u5 : List Char → List Char)
    (get_embedding : List Char → Except E Vec)
    (insertObj : List (IndexEntry Vec) → List Char → DataObject → Vec →
      Except E (List (IndexEntry Vec)))
    (chunks : List VChunk) (idx : List (IndexEntry Vec)) (db : List DbRow) :
    ((store_embeddings u5 get_embedding insertObj chunks idx db).2.length = db.length) ∧
    (∀ (i : Nat) (h : i < db.length)
        (h2 : i < (store_embeddings u5 get_embedding insertObj chunks idx db).2.length),
        (db.get ⟨i, h⟩).vector_embedded = true →
        (store_embeddings u5 get_embedding insertObj chunks idx db).2.get ⟨i, h2⟩ =
          db.get ⟨i, h⟩) ∧
    (∀ (i : Nat) (h : i < db.length)
        (h2 : i < (store_embeddings u5 get_embedding insertObj chunks idx db).2.length),
        (((store_embeddings u5 get_embedding insertObj chunks idx db).2.get
            ⟨i, h2⟩).vector_embedded = true ↔
          (db.get ⟨i, h⟩).vector_embedded = true ∨
          ∃ bpre b bpost pre c post,
            batch_chunks chunks EMBEDDING_BATCH_SIZE = bpre ++ b :: bpost ∧
            b = pre ++ c :: post ∧ c.id = (db.get ⟨i, h⟩).id ∧
            embedAttemptOk u5 get_embedding insertObj
              ((pre.foldl (embedOne u5 get_embedding insertObj)
                ((bpre.foldl (storeStep u5 get_embedding insertObj) (idx, db)).1,
                  ([] : List Nat))).1) c)) ∧
    (∀ (batch : List VChunk) (idx0 : List (IndexEntry Vec)) (n : Nat),
        n ∈ (batch.foldl (embedOne u5 get_embedding insertObj)
          (idx0, ([] : List Nat))).2 ↔
        ∃ pre c post, batch = pre ++ c :: post ∧ n = c.id ∧
          embedAttemptOk u5 get_embedding insertObj
            ((pre.foldl (embedOne u5 get_embedding insertObj)
              (idx0, ([] : List Nat))).1) c) ∧
    (∀ (st : List (IndexEntry Vec) × List Nat) (c : VChunk),
        ¬ embedAttemptOk u5 get_embedding insertObj st.1 c →
        embedOne u5 get_embedding insertObj st c = st) ∧
    (∀ (i : Nat) (h : i < db.length)
        (h2 : i < (store_embeddings u5 get_embedding insertObj chunks idx db).2.length),
        (store_embeddings u5 get_embedding insertObj chunks idx db).2.get ⟨i, h2⟩ =
            db.get ⟨i, h⟩ ∨
        (store_embeddings u5 get_embedding insertObj chunks idx db).2.get ⟨i, h2⟩ =
          { db.get ⟨i, h⟩ with vector_embedded := true }) ∧
    (∀ v ∈ get_chunks_from_db db, ∃ r ∈ db, r.vector_embedded = false ∧ v = vchunkOf r) := by
  unfold store_embeddings
  obtain ⟨hlen, hget⟩ := store_fold_inv u5 get_embedding insertObj
    (batch_chunks chunks EMBEDDING_BATCH_SIZE) idx db
  refine ⟨hlen, ?_, ?_, ?_, ?_, ?_, ?_⟩
  · intro i h h2 hflag
    rcases hget i h h2 with hcase | ⟨hcase, _⟩
    · exact hcase
    · rw [hcase, row_set_true_of_true _ hflag]
  · intro i h h2
    constructor
    · intro hflag
      rcases hget i h h2 with hcase | ⟨hcase, bpre, b, bpost, hdec, hmem⟩
      · rw [hcase] at hflag
        exact Or.inl hflag
      · obtain ⟨pre, c, post, hbdec, hn, hok⟩ :=
          (batch_success_ids_iff u5 get_embedding insertObj b
            ((bpre.foldl (storeStep u5 get_embedding insertObj) (idx, db)).1)
            ((db.get ⟨i, h⟩).id)).mp hmem
        exact Or.inr ⟨bpre, b, bpost, pre, c, post, hdec, hbdec, hn.symm, hok⟩
    · intro hcases
      rcases hcases with hflag | ⟨bpre, b, bpost, pre, c, post, hdec, hbdec, hn, hok⟩
      · exact store_fold_flag_mono u5 get_embedding insertObj
          (batch_chunks chunks EMBEDDING_BATCH_SIZE) idx db i h h2 hflag
      · have hmem : (db.get ⟨i, h⟩).id ∈
            (b.foldl (embedOne u5 get_embedding insertObj)
              ((bpre.foldl (storeStep u5 get_embedding insertObj) (idx, db)).1,
                ([] : List Nat))).2 :=
          (batch_success_ids_iff u5 get_embedding insertObj b
            ((bpre.foldl (storeStep u5 get_embedding insertObj) (idx, db)).1)
            ((db.get ⟨i, h⟩).id)).mpr ⟨pre, c, post, hbdec, hn.symm, hok⟩
        revert h2
        rw [hdec]
        intro h2
        exact store_fold_complete u5 get_embedding insertObj bpre b bpost idx db i h h2 hmem
  · intro batch idx0 n
    exact batch_success_ids_iff u5 get_embedding insertObj batch idx0 n
  · intro st c hok
    exact embedOne_of_not_ok u5 get_embedding insertObj st c hok
  · intro i h h2
    rcases hget i h h2 with hcase | ⟨hcase, _⟩
    · exact Or.inl hcase
    · exact Or.inr hcase
  · intro v hv
    unfold get_chunks_from_db at hv
    obtain ⟨r, hr, hvr⟩ := List.mem_map.mp hv
    obtain ⟨hrdb, hrfl⟩ := List.mem_filter.mp hr
    refine ⟨r, hrdb, ?_, hvr.symm⟩
    simpa using hrfl

def wGe : List Char → Except Unit Unit := fun _ => Except.ok ()

def wIo : List (IndexEntry Unit) → List Char → DataObject → Unit →
    Except Unit (List (IndexEntry Unit)) :=
  fun idx u p v => Except.ok (upsertEntry idx u p v)

def wR1 : DbRow :=
  { id := 1, source_file := toL "f.pdf", chunk_number := 1, content := toL "x",
    page_number := 1, vector_embedded := true }

def wR2 : DbRow :=
  { id := 2, source_file := toL "f.pdf", chunk_number := 2, content := toL "y",
    page_number := 1, vector_embedded := false }

/-- C7 witness: on a concrete two-row table the already-embedded row is
returned unchanged by a full run of the upsert phase. -/
theorem store_embeddings_flag_discipline_witness :
    (store_embeddings (fun x => x) wGe wIo (get_chunks_from_db [wR1, wR2]) []
        [wR1, wR2]).2.get ⟨0, by decide⟩ = wR1 :=
  (store_embeddings_flag_discipline (fun x => x) wGe wIo (get_chunks_from_db [wR1, wR2])
      [] [wR1, wR2]).2.1 0 (by decide) (by decide) (by decide)

/-! ### llm.py — hybrid_search (lines 52-88)

The Ollama embeddings endpoint and the Weaviate hybrid query are
external: they are the parameters embedQuery and queryHybrid.  An
Except.error models the exceptions the two try/except arms catch
(requests.RequestException around the embedding call; any exception from
the hybrid query).  Everything else in the body is pure formatting. -/

/-- The three literal return strings of lines 79, 85 and 88. -/
def noHitsMsg : String := "⚠️ No relevant information found in current knowledge base."

def embErrMsg : String := "⚠️ Unable to search knowledge base due to embedding service error."

def searchErrMsg : String := "⚠️ Unable to search knowledge base due to search error."

/-- The properties read from a returned object (line 74). -/
structure Hit where
  source_file : String
  page_number : Nat
  content : String

/-- The provenance-annotated line built at lines 73-75. -/
def formatHit (h : Hit) : String :=
  "[" ++ h.source_file ++ " - Page " ++ toString h.page_number ++ "] " ++ h.content

/-- hybrid_search (llm.py lines 52-88). -/
def hybrid_search {EmbErr QErr Vec : Type}
    (embedQuery : String → Except EmbErr Vec)
    (queryHybrid : String → Vec → Nat → Except QErr (List Hit))
    (query : String) (top_k : Nat) : String :=
  match embedQuery query with
  | Except.error _ => embErrMsg
  | Except.ok vec =>
    match queryHybrid query vec top_k with
    | Except.error _ => searchErrMsg
    | Except.ok objs =>
      if (objs.map formatHit).isEmpty then noHitsMsg
      else String.intercalate "\x0a" (objs.map formatHit)

/-! ### Claim C9 — total retrieval with distinguishable sentinels -/

/-- C9: hybrid_search always returns a string (the embedded function is
total; each failing external call is caught and mapped to a message).
A successful query with zero hits returns the no-relevant-information
sentinel, which is not the empty string; a failing embedding call or a
failing index query returns an error sentinel; both error sentinels are
distinct from the no-hits sentinel, so a caller can tell nothing-found
from search-broken. -/
theorem hybrid_search_sentinels {EmbErr QErr Vec : Type}
    (embedQuery : String → Except EmbErr Vec)
    (queryHybrid : String → Vec → Nat → Except QErr (List Hit))
    (query : String) (top_k : Nat) :
    (∀ e, embedQuery query = Except.error e →
      hybrid_search embedQuery queryHybrid query top_k = embErrMsg) ∧
    (∀ vec e, embedQuery query = Except.ok vec →
      queryHybrid query vec top_k = Except.error e →
      hybrid_search embedQuery queryHybrid query top_k = searchErrMsg) ∧
    (∀ vec, embedQuery query = Except.ok vec →
      queryHybrid query vec top_k = Except.ok [] →
      hybrid_search embedQuery queryHybrid query top_k = noHitsMsg) ∧
    noHitsMsg ≠ "" ∧ embErrMsg ≠ noHitsMsg ∧ searchErrMsg ≠ noHitsMsg ∧
    embErrMsg ≠ "" ∧ searchErrMsg ≠ "" := by
  refine ⟨?_, ?_, ?_, by decide, by decide, by decide, by decide, by decide⟩
  · intro e he
    unfold hybrid_search
    rw [he]
  · intro vec e hv hq
    unfold hybrid_search
    rw [hv]
    simp only [hq]
  · intro vec hv hq
    unfold hybrid_search
    rw [hv]
    simp only [hq]
    rfl

/-- C9 witness: concrete instantiations exercising the no-hits branch. -/
theorem hybrid_search_sentinels_witness :
    hybrid_search (fun _ => (Except.ok 0 : Except Unit Nat))
        (fun _ _ _ => (Except.ok [] : Except Unit (List Hit))) "q" 3 = noHitsMsg :=
  (hybrid_search_sentinels (fun _ => (Except.ok 0 : Except Unit Nat))
      (fun _ _ _ => (Except.ok [] : Except Unit (List Hit))) "q" 3).2.2.1 0 rfl rfl
